import Mathlib

/-!
Verification of the jira-dashboard reporting engine against its design
specification.

The development shallowly embeds the aggregation and reconciliation logic of
`report_hours.py` and `data_processor.py` in Lean:

* Python floats are modelled as exact rationals (`ℚ`); `round(x, 1)` is
  modelled by `round1`, round-half-to-even at one decimal on the exact value.
* Python `dict` / `defaultdict` accumulators are modelled as total functions
  (defaulting to `0` / `none`) together with explicit key `Finset`s where the
  code iterates over the keys that were actually inserted.
* Python `date` values are modelled by `PDate` (year, month, day as naturals);
  ISO-8601 date strings compared lexicographically by the code are compared
  chronologically here, which agrees on well-formed ISO dates.
* Iteration over a `dict` is modelled by folding over an input list; where the
  code sorts keys before emitting, sorting is omitted when only the contents
  (not the order) of the result are at stake.
-/

/-- Round-half-to-even of a rational to an integer, the rounding mode of
Python's builtin `round` (modelled on exact values). -/
def halfEven (q : ℚ) : ℤ :=
  let n := ⌊q⌋
  let f := q - n
  if f < 1/2 then n else if 1/2 < f then n + 1 else if n % 2 = 0 then n else n + 1

/-- Model of Python `round(x, 1)`: round-half-to-even at one decimal digit. -/
def round1 (q : ℚ) : ℚ := (halfEven (q * 10) : ℚ) / 10

/-- `round(x, 1)` is the identity on exact multiples of one tenth. -/
theorem round1_tenths (k : ℤ) : round1 ((k : ℚ)/10) = (k : ℚ)/10 := by
  have h : ((k : ℚ)/10) * 10 = (k : ℚ) := by field_simp
  rw [round1, h, halfEven]
  simp

/-- Every output of `round1` is an exact multiple of one tenth. -/
theorem round1_form (q : ℚ) : ∃ k : ℤ, round1 q = (k : ℚ)/10 :=
  ⟨halfEven (q * 10), rfl⟩

/-- A finite sum of one-decimal-rounded values is an exact multiple of one
tenth. -/
theorem sum_round1_form {α : Type} (S : Finset α) (f : α → ℚ) :
    ∃ k : ℤ, Finset.sum S (fun a => round1 (f a)) = (k : ℚ)/10 := by
  refine ⟨Finset.sum S (fun a => halfEven (f a * 10)), ?_⟩
  push_cast
  rw [Finset.sum_div]
  rfl

/-- Re-rounding a finite sum of already-rounded values changes nothing. -/
theorem round1_sum_round1 {α : Type} (S : Finset α) (f : α → ℚ) :
    round1 (Finset.sum S (fun a => round1 (f a))) =
      Finset.sum S (fun a => round1 (f a)) := by
  obtain ⟨k, hk⟩ := sum_round1_form S f
  rw [hk, round1_tenths]

/- ── Dates ─────────────────────────────────────────────────────── -/

/-- A calendar date, modelling Python `datetime.date`. -/
structure PDate where
  year : ℕ
  month : ℕ
  day : ℕ
deriving DecidableEq, Repr

/-- Chronological `≤` on dates (Python compares `date` values this way, and
compares ISO-8601 date strings lexicographically, which agrees). -/
def dateLeB (a b : PDate) : Bool :=
  decide (a.year < b.year) ||
    (a.year == b.year &&
      (decide (a.month < b.month) ||
        (a.month == b.month && decide (a.day ≤ b.day))))

/-- Chronological `<` on dates. -/
def dateLtB (a b : PDate) : Bool :=
  decide (a.year < b.year) ||
    (a.year == b.year &&
      (decide (a.month < b.month) ||
        (a.month == b.month && decide (a.day < b.day))))

/- ── Archival lifecycle (report_hours.find_factorial_jira_accounts and the
     name-based fallback in report_hours.main) ─────────────────────── -/

/-- The first day of the month two months after the termination month:
`archive_m = term.month + 2; if archive_m > 12: archive_m -= 12; archive_y += 1`,
then `date(archive_y, archive_m, 1)`.  This exact computation appears three
times in `report_hours.py` (both branches of `find_factorial_jira_accounts`
and the name-based fallback in `main`). -/
def archiveCutoff (term : PDate) : PDate :=
  let m2 := term.month + 2
  if m2 > 12 then ⟨term.year + 1, m2 - 12, 1⟩ else ⟨term.year, m2, 1⟩

/-- `is_archived = today >= date(archive_y, archive_m, 1)`. -/
def is_archived (today term : PDate) : Bool :=
  dateLeB (archiveCutoff term) today

/- ── Variance cells (the cpDiffCell renderer of the comparison tab) ── -/

/-- `const diff = j - f` in `cpDiffCell`. -/
def cpDiff (j f : ℚ) : ℚ := j - f

/-- `const pct = f > 0 ? Math.abs(diff / f * 100) : (j > 0 ? 100 : 0)`. -/
def cpPct (j f : ℚ) : ℚ :=
  if 0 < f then |cpDiff j f / f * 100| else if 0 < j then 100 else 0

/-- The three severity bands of the comparison cells: no background (normal),
amber (warning), red (critical). -/
inductive Severity
  | normal
  | warning
  | critical
deriving DecidableEq, Repr

/-- `pct <= 10 ? '' : pct <= 25 ? amber : red` in `cpDiffCell`. -/
def cpBand (pct : ℚ) : Severity :=
  if pct ≤ 10 then .normal else if pct ≤ 25 then .warning else .critical

/-- Modelled from the spec's words, for comparison with `cpPct`:
`pct = |diff| / captured * 100` if `captured > 0`, else `100` if
`reported > 0` else `0`. -/
def specPct (reported captured : ℚ) : ℚ :=
  if 0 < captured then |reported - captured| / captured * 100
  else if 0 < reported then 100 else 0

/- ── Calendar arithmetic ───────────────────────────────────────── -/

/-- Gregorian leap year, as in Python's `calendar` module. -/
def isLeap (y : ℕ) : Bool :=
  y % 4 == 0 && (y % 100 != 0 || y % 400 == 0)

/-- `calendar.monthrange(y, m)[1]`: number of days of a month. -/
def daysInMonth (y m : ℕ) : ℕ :=
  if m == 2 then (if isLeap y then 29 else 28)
  else if m == 4 || m == 6 || m == 9 || m == 11 then 30 else 31

/-- Day number of a proleptic Gregorian date (days since 1970-01-01, the
standard civil-from-date algorithm), modelling the day ordinal underlying
Python's `date` subtraction.  Only differences of `toDays` values are ever
used, so the choice of epoch is irrelevant.  All uses have year ≥ 1, where
every division below has nonnegative operands. -/
def toDays (dt : PDate) : ℤ :=
  let y : ℤ := (dt.year : ℤ) - (if dt.month ≤ 2 then 1 else 0)
  let m : ℤ := (dt.month : ℤ)
  let d : ℤ := (dt.day : ℤ)
  let era : ℤ := (if 0 ≤ y then y else y - 399) / 400
  let yoe : ℤ := y - era * 400
  let doy : ℤ := (153 * (m + (if 2 < m then -3 else 9)) + 2) / 5 + d - 1
  let doe : ℤ := yoe * 365 + yoe / 4 - yoe / 100 + doy
  era * 146097 + doe - 719468

/-- Numeric value of a decimal digit character, `none` on non-digits. -/
def digitVal (c : Char) : Option ℕ :=
  if c.isDigit then some (c.toNat - 48) else none

/-- Model of Python `date.fromisoformat`: parses `"YYYY-MM-DD"`, validating
month and day ranges; `none` models the `ValueError`/`TypeError` raised on
malformed or missing input. -/
def parseDate (s : String) : Option PDate :=
  match s.toList with
  | [y1, y2, y3, y4, c1, m1, m2, c2, d1, d2] =>
    match digitVal y1, digitVal y2, digitVal y3, digitVal y4,
          digitVal m1, digitVal m2, digitVal d1, digitVal d2 with
    | some a, some b, some c, some d, some e, some f, some g, some h =>
      if c1 = '-' ∧ c2 = '-' then
        let y := ((a * 10 + b) * 10 + c) * 10 + d
        let mo := e * 10 + f
        let da := g * 10 + h
        if 1 ≤ mo ∧ mo ≤ 12 ∧ 1 ≤ da ∧ da ≤ daysInMonth y mo then
          some ⟨y, mo, da⟩
        else none
      else none
    | _, _, _, _, _, _, _, _ => none
  | _ => none

/-- Character of a decimal digit. -/
def digitChar (n : ℕ) : Char := Char.ofNat (48 + n % 10)

/-- Two-digit zero-padded rendering (`f"{n:02d}"`). -/
def twoDigits (n : ℕ) : List Char := [digitChar (n / 10 % 10), digitChar (n % 10)]

/-- Four-digit zero-padded rendering (`f"{n:04d}"`). -/
def fourDigits (n : ℕ) : List Char :=
  [digitChar (n / 1000 % 10), digitChar (n / 100 % 10),
   digitChar (n / 10 % 10), digitChar (n % 10)]

/-- ISO rendering `"YYYY-MM-DD"` of a date. -/
def isoOf (dt : PDate) : String :=
  String.mk (fourDigits dt.year ++ '-' :: twoDigits dt.month ++ '-' :: twoDigits dt.day)

/-- Month-key rendering `"YYYY-MM"`. -/
def monthKeyStr (y m : ℕ) : String :=
  String.mk (fourDigits y ++ '-' :: twoDigits m)

/- ── Leave records (report_hours.build_leaves_data and the buildLeaves
     renderer) ─────────────────────────────────────────────────────── -/

/-- A leave record as fetched from the HR feed (`lv` in
`build_leaves_data`); date fields are raw strings there. -/
structure LeaveRec where
  start_date : String
  end_date : String
  leave_type : String
  status : String
deriving DecidableEq, Repr

/-- One emitted leave entry, with the computed day count. -/
structure LeaveOut where
  start_date : String
  end_date : String
  leave_type : String
  status : String
  days : ℤ
deriving DecidableEq, Repr

/-- One entry appended by `build_leaves_data`:
`days = max(1, (d2 - d1).days + 1)` when both dates parse; the
`except (ValueError, TypeError)` branch sets `days = 1` and the entry is
appended either way. -/
def leaveEntry (lv : LeaveRec) : LeaveOut :=
  let days : ℤ :=
    match parseDate lv.start_date, parseDate lv.end_date with
    | some d1, some d2 => max 1 (toDays d2 - toDays d1 + 1)
    | _, _ => 1
  ⟨lv.start_date, lv.end_date, lv.leave_type, lv.status, days⟩

/-- `build_leaves_data(matched, leaves)`: for each matched person (name,
factorial id), skip when the id has no leaves, else emit all entries.
The `sorted(...)` over names only permutes the output and is omitted. -/
def build_leaves_data (matched : List (String × ℕ)) (leaves : ℕ → List LeaveRec) :
    List (String × List LeaveOut) :=
  matched.filterMap (fun p =>
    match leaves p.2 with
    | [] => none
    | es => some (p.1, es.map leaveEntry))

/-- The `buildLeaves` renderer groups an entry under
`e.start_date.substring(0, 7)` (falsy start dates under `"0000-00"`). -/
def leaveMonthKey (s : String) : String :=
  if s.toList.isEmpty then "0000-00" else String.mk (s.toList.take 7)

/- ── Candidate filtering (report_hours.find_factorial_jira_accounts) ── -/

/-- An HR directory record as produced by `get_employees_map`. -/
structure FactEmployee where
  full_name : String
  start_date : Option String
  terminated_on : Option String
deriving DecidableEq, Repr

/-- Code-point `<` on characters (Python compares strings this way). -/
def chLtB (a b : Char) : Bool := decide (a.val < b.val)

/-- Lexicographic `<` on character lists. -/
def lexLtB : List Char → List Char → Bool
  | [], [] => false
  | [], _ :: _ => true
  | _ :: _, [] => false
  | a :: as, b :: bs => chLtB a b || (a == b && lexLtB as bs)

/-- Python string `<` (lexicographic by code point); on well-formed ISO dates
this is chronological order. -/
def strLtB (a b : String) : Bool := lexLtB a.toList b.toList

/-- `emp.get("start_date") or "2000-01-01"`: missing or empty start date
falls back to the default. -/
def startOrDefault (emp : FactEmployee) : String :=
  match emp.start_date with
  | none => "2000-01-01"
  | some s => if s.toList.isEmpty then "2000-01-01" else s

/-- The candidate admission test of `find_factorial_jira_accounts`: an
employee with a termination date is skipped when
`start_date > range_end or term_date < range_start`; an employee without one
is always admitted. -/
def candidateKept (range_start range_end : String) (emp : FactEmployee) : Bool :=
  match emp.terminated_on with
  | none => true
  | some term =>
      !(strLtB range_end (startOrDefault emp) || strLtB term range_start)

/-- The candidate map built by `find_factorial_jira_accounts` before any
tracker lookup (insertion into `candidates`, keyed by email). -/
def find_candidates (range_start range_end : String)
    (emps : List (String × FactEmployee)) : List (String × FactEmployee) :=
  emps.filter (fun p => candidateKept range_start range_end p.2)

/- ── Worklog ingestion (report_hours.fetch_worklogs) ───────────── -/

/-- A month key `"YYYY-MM"`, modelled as the (year, month) pair. -/
abbrev MonthKey := ℕ × ℕ

/-- A day key `"YYYY-MM-DD"`, modelled as the (year, month, day) triple. -/
abbrev DayKey := ℕ × ℕ × ℕ

/-- The month of a date. -/
def monthOf (d : PDate) : MonthKey := (d.year, d.month)

/-- The day key of a date. -/
def dayOf (d : PDate) : DayKey := (d.year, d.month, d.day)

/-- One worklog as consumed by `fetch_worklogs`, tagged with the key of its
enclosing issue.  `started` is `none` when the field is missing (the code
skips those); `timeSpentSeconds` defaults to `0` when missing
(`wl.get("timeSpentSeconds", 0)`). -/
structure FetchWorklog where
  authorId : String
  authorName : String
  started : Option PDate
  timeSpentSeconds : ℕ
  issueKey : String
deriving DecidableEq, Repr

/-- `seconds / 3600`. -/
def fetchHoursOf (w : FetchWorklog) : ℚ := (w.timeSpentSeconds : ℚ) / 3600

/-- The `continue` cascade of `fetch_worklogs`: a worklog is processed iff
`started` is present, its date lies in `[dt_from, dt_to)`, and the author
passes the (possibly empty, i.e. disabled) allow-list.  `dtTo` is the first
day of the month after the requested end month. -/
def fetchOk (allowed : List String) (dtFrom dtTo : PDate) (w : FetchWorklog) : Bool :=
  match w.started with
  | none => false
  | some d =>
      !(dateLtB d dtFrom || dateLeB dtTo d) &&
        !(!allowed.isEmpty && !(allowed.contains w.authorId))

/-- One step of the `raw[author_name][month_key][issue_key]` accumulation:
note the entry is created (and `hours` bumped by `seconds / 3600`) with no
check that `seconds` is nonzero. -/
def fetchStep (allowed : List String) (dtFrom dtTo : PDate)
    (t : String × MonthKey × String → ℚ) (w : FetchWorklog) :
    String × MonthKey × String → ℚ :=
  match w.started with
  | none => t
  | some d =>
      if fetchOk allowed dtFrom dtTo w then
        fun k => if k = (w.authorName, monthOf d, w.issueKey) then t k + fetchHoursOf w else t k
      else t

/-- The hour content of the `raw` tree built by `fetch_worklogs`. -/
def fetchHours (allowed : List String) (dtFrom dtTo : PDate)
    (wls : List FetchWorklog) : String × MonthKey × String → ℚ :=
  wls.foldl (fetchStep allowed dtFrom dtTo) (fun _ => 0)

/-- The set of `(user, month, issue)` nodes created in `raw` by
`fetch_worklogs` (a `defaultdict` node is created by the mere access
`raw[author_name][month_key][issue_key]`, before any hours are added). -/
def fetchKeys (allowed : List String) (dtFrom dtTo : PDate)
    (wls : List FetchWorklog) : Finset (String × MonthKey × String) :=
  wls.foldl (fun s w =>
    match w.started with
    | none => s
    | some d =>
        if fetchOk allowed dtFrom dtTo w then
          insert (w.authorName, monthOf d, w.issueKey) s
        else s) ∅

/-- The `daily_raw[author_name][day_key]` accumulation of `fetch_worklogs`. -/
def fetchDaily (allowed : List String) (dtFrom dtTo : PDate)
    (wls : List FetchWorklog) : String × DayKey → ℚ :=
  wls.foldl (fun t w =>
    match w.started with
    | none => t
    | some d =>
        if fetchOk allowed dtFrom dtTo w then
          fun k => if k = (w.authorName, dayOf d) then t k + fetchHoursOf w else t k
        else t) (fun _ => 0)

/- ── Hierarchical hours rollup (data_processor._hours_report) ───── -/

/-- One worklog as consumed by `_hours_report` (flattened: the code tags
each worklog with `_issueKey`). -/
structure DPWorklog where
  displayName : String
  timeSpentSeconds : ℕ
  started : Option PDate
  issueKey : String
deriving DecidableEq, Repr

/-- `issue_key.split("-")[0] if "-" in issue_key else "OTHER"`. -/
def projectOf (k : String) : String :=
  if k.toList.contains '-' then String.mk (k.toList.takeWhile (fun c => c != '-'))
  else "OTHER"

/-- `seconds / 3600`. -/
def dpHours (w : DPWorklog) : ℚ := (w.timeSpentSeconds : ℚ) / 3600

/-- The skip test of `_hours_report`: `if not started or not seconds:
continue`. -/
def dpValid (w : DPWorklog) : Bool :=
  w.started.isSome && w.timeSpentSeconds != 0

/-- Does a worklog contribute to user `u`, month `m`?  (Validity plus the
author test; spec-side characterization used to state the rollup's flat-sum
properties.) -/
def dpMatchU (w : DPWorklog) (u : String) (m : MonthKey) : Bool :=
  dpValid w && w.displayName == u && w.started.map monthOf == some m

/-- Contribution test at the project level. -/
def dpMatchP (w : DPWorklog) (u p : String) (m : MonthKey) : Bool :=
  dpMatchU w u m && projectOf w.issueKey == p

/-- Contribution test at the issue level. -/
def dpMatchI (w : DPWorklog) (u p i : String) (m : MonthKey) : Bool :=
  dpMatchP w u p m && w.issueKey == i

/-- One step of `tree[name][project][issue_key][month] += hours` (after the
`continue` guard on missing `started` or zero `seconds`). -/
def dpStep (t : String → String → String → MonthKey → ℚ) (w : DPWorklog) :
    String → String → String → MonthKey → ℚ :=
  match w.started with
  | none => t
  | some d =>
      if w.timeSpentSeconds = 0 then t
      else fun u p i m =>
        if u = w.displayName ∧ p = projectOf w.issueKey ∧ i = w.issueKey ∧ m = monthOf d
        then t u p i m + dpHours w else t u p i m

/-- The leaf content of the `_hours_report` tree. -/
def dpTree (wls : List DPWorklog) : String → String → String → MonthKey → ℚ :=
  wls.foldl dpStep (fun _ _ _ _ => 0)

/-- Keys of `tree` (the users iterated when building `rows`). -/
def dpUserSet (wls : List DPWorklog) : Finset String :=
  wls.foldl (fun s w =>
    if dpValid w then insert w.displayName s else s) ∅

/-- Keys of `tree[user]` (the projects iterated for a user's row). -/
def dpProjSet (wls : List DPWorklog) (u : String) : Finset String :=
  wls.foldl (fun s w =>
    if dpValid w && w.displayName == u then insert (projectOf w.issueKey) s else s) ∅

/-- Keys of `tree[user][proj]` (the issues iterated for a project row). -/
def dpIssueSet (wls : List DPWorklog) (u p : String) : Finset String :=
  wls.foldl (fun s w =>
    if dpValid w && w.displayName == u && projectOf w.issueKey == p
    then insert w.issueKey s else s) ∅

/-- The `all_months` set collected by `_hours_report`. -/
def dpMonthSet (wls : List DPWorklog) : Finset MonthKey :=
  wls.foldl (fun s w =>
    match w.started with
    | none => s
    | some d => if w.timeSpentSeconds = 0 then s else insert (monthOf d) s) ∅

/-- `proj_months[m]`: the code accumulates, for each issue of the project,
its leaf month map, so a project's raw month value is the sum of its issues'
leaves. -/
def dpProjMonths (wls : List DPWorklog) (u p : String) (m : MonthKey) : ℚ :=
  Finset.sum (dpIssueSet wls u p) (fun i => dpTree wls u p i m)

/-- `user_months[m]`, accumulated over all the user's projects and issues. -/
def dpUserMonths (wls : List DPWorklog) (u : String) (m : MonthKey) : ℚ :=
  Finset.sum (dpProjSet wls u) (fun p => dpProjMonths wls u p m)

/-- An issue row's emitted month value (`_sum_months` applies `round(., 1)`). -/
def issueEmit (wls : List DPWorklog) (u p i : String) (m : MonthKey) : ℚ :=
  round1 (dpTree wls u p i m)

/-- A project row's emitted month value. -/
def projEmit (wls : List DPWorklog) (u p : String) (m : MonthKey) : ℚ :=
  round1 (dpProjMonths wls u p m)

/-- A user row's emitted month value. -/
def userEmit (wls : List DPWorklog) (u : String) (m : MonthKey) : ℚ :=
  round1 (dpUserMonths wls u m)

/-- A user row's emitted `total` (`_total` rounds the raw month sum). -/
def userTotalEmit (wls : List DPWorklog) (u : String) : ℚ :=
  round1 (Finset.sum (dpMonthSet wls) (fun m => dpUserMonths wls u m))

/-- `month_totals[m] = round(sum(r["months"].get(m, 0) for r in rows), 1)`:
the rows' already-rounded month values are summed and re-rounded. -/
def monthTotalEmit (wls : List DPWorklog) (m : MonthKey) : ℚ :=
  round1 (Finset.sum (dpUserSet wls) (fun u => userEmit wls u m))

/-- `grand_total = round(sum(r["total"] for r in rows), 1)`. -/
def grandTotalEmit (wls : List DPWorklog) : ℚ :=
  round1 (Finset.sum (dpUserSet wls) (fun u => userTotalEmit wls u))

/-- Spec-side flat sum: all hours of the valid worklogs of issue `i`
(project `p`, user `u`) in month `m`. -/
def flatIssue (wls : List DPWorklog) (u p i : String) (m : MonthKey) : ℚ :=
  ((wls.filter (fun w => dpMatchP w u p m && w.issueKey == i)).map dpHours).sum

/-- Spec-side flat sum at the project level. -/
def flatProj (wls : List DPWorklog) (u p : String) (m : MonthKey) : ℚ :=
  ((wls.filter (fun w => dpMatchU w u m && projectOf w.issueKey == p)).map dpHours).sum

/-- Spec-side flat sum at the user level. -/
def flatUser (wls : List DPWorklog) (u : String) (m : MonthKey) : ℚ :=
  ((wls.filter (fun w => dpMatchU w u m)).map dpHours).sum

/- ── Category-transition attribution (generate_html, changes_data) ── -/

/-- One flattened `(user, month, issue)` cell of the `raw` tree, as iterated
by `generate_html` when building `issue_worklogs` (users, then months, then
the month's task dict). -/
structure RTask where
  user : String
  month : MonthKey
  key : String
  summary : String
  hours : ℚ

/-- An `issue_worklogs[key]` entry: the issue's summary and its full
per-month per-user rounded hour map. -/
structure IWEntry where
  summary : String
  months : MonthKey → String → ℚ

/-- One `Cliente GLOBAL` change event from the changelog. -/
structure ChangeEv where
  date : String
  fromVal : String
  toVal : String
deriving DecidableEq, Repr

/-- `label = f"{from} → {to}"`. -/
def chLabel (c : ChangeEv) : String := c.fromVal ++ " → " ++ c.toVal

/-- A `changes_data[label][key]` entry. -/
structure ChangeOut where
  summary : String
  change_date : String
  months : MonthKey → String → ℚ

/-- One step of building `issue_worklogs`: tasks whose key is in
`client_changes` get their per-user month cell set to
`round(previous + hours, 1)`; the summary is fixed at creation. -/
def iwStep (changedKeys : String → Bool) (acc : String → Option IWEntry)
    (t : RTask) : String → Option IWEntry :=
  if changedKeys t.key then
    let cur := (acc t.key).getD ⟨t.summary, fun _ _ => 0⟩
    fun k =>
      if k = t.key then
        some ⟨cur.summary, fun m u =>
          if m = t.month ∧ u = t.user then round1 (cur.months m u + t.hours)
          else cur.months m u⟩
      else acc k
  else acc

/-- `issue_worklogs`: all worklog hours per issue (among issues with a
recorded change), grouped by month and user. -/
def issue_worklogs (changedKeys : String → Bool) (ts : List RTask) :
    String → Option IWEntry :=
  ts.foldl (iwStep changedKeys) (fun _ => none)

/-- Inner loop of `changes_data`: for each change event of issue `k`, store
the issue's full `months` map under the event's label. -/
def cdInner (iw : IWEntry) (k : String) (acc : String → String → Option ChangeOut)
    (c : ChangeEv) : String → String → Option ChangeOut :=
  fun lbl k2 =>
    if lbl = chLabel c ∧ k2 = k then some ⟨iw.summary, c.date, iw.months⟩ else acc lbl k2

/-- Outer loop of `changes_data`: issues absent from `issue_worklogs` (no
hours in range) are skipped. -/
def cdStep (iwm : String → Option IWEntry)
    (acc : String → String → Option ChangeOut) (p : String × List ChangeEv) :
    String → String → Option ChangeOut :=
  match iwm p.1 with
  | none => acc
  | some iw => p.2.foldl (cdInner iw p.1) acc

/-- `changes_data[label][key]`, built from `client_changes` and
`issue_worklogs`. -/
def changes_data (iwm : String → Option IWEntry)
    (cc : List (String × List ChangeEv)) : String → String → Option ChangeOut :=
  cc.foldl (cdStep iwm) (fun _ _ => none)

/- ── Attendance reconciliation (report_hours.build_comparison_data) ── -/

/-- A day row `{jira, factorial}` of the comparison structure. -/
structure DayCell where
  jira : ℚ
  factorial : ℚ
deriving DecidableEq

/-- A month row of the comparison structure. -/
structure MonthCell where
  jira : ℚ
  factorial : ℚ
  days : List (DayKey × DayCell)

/-- A person's comparison entry. -/
structure PersonCmp where
  months : List (MonthKey × MonthCell)

/-- The day loop of `build_comparison_data`: for each calendar day of the
month, round both sides (absent values default to 0 via `.get(day, 0)`,
modelled by total functions) and keep the day iff one rounded side is
positive. -/
def buildDays (jd fd : DayKey → ℚ) (y m : ℕ) : List (DayKey × DayCell) :=
  ((List.range (daysInMonth y m)).map (fun i => i + 1)).filterMap (fun d =>
    let dj := round1 (jd (y, m, d))
    let df := round1 (fd (y, m, d))
    if 0 < dj ∨ 0 < df then some ((y, m, d), ⟨dj, df⟩) else none)

/-- `jira_h`: sum of the user's task hours for the month (`rawTasks` gives
the per-issue hour values of `raw[user].get(m, {})`, `[]` when absent),
rounded to one decimal. -/
def cmpJiraMonth (rawTasks : String → MonthKey → List ℚ) (name : String)
    (m : MonthKey) : ℚ :=
  round1 ((rawTasks name m).sum)

/-- `fact_h = round(fact_attendance.get(m, 0), 1)`. -/
def cmpFactMonth (attendance : ℕ → MonthKey → ℚ) (fid : ℕ) (m : MonthKey) : ℚ :=
  round1 (attendance fid m)

/-- The `person["months"]` map built for one matched employee. -/
def personMonths (rawTasks : String → MonthKey → List ℚ)
    (attendance : ℕ → MonthKey → ℚ) (jd : String → DayKey → ℚ)
    (fd : ℕ → DayKey → ℚ) (months : List MonthKey) (name : String) (fid : ℕ) :
    List (MonthKey × MonthCell) :=
  months.map (fun m =>
    (m, ⟨cmpJiraMonth rawTasks name m, cmpFactMonth attendance fid m,
         buildDays (fun d => jd name d) (fun d => fd fid d) m.1 m.2⟩))

/-- `total_j`: sum of the rounded per-month jira values. -/
def cmpTotalJ (rawTasks : String → MonthKey → List ℚ) (months : List MonthKey)
    (name : String) : ℚ :=
  (months.map (fun m => cmpJiraMonth rawTasks name m)).sum

/-- `total_f`: sum of the rounded per-month factorial values. -/
def cmpTotalF (attendance : ℕ → MonthKey → ℚ) (months : List MonthKey)
    (fid : ℕ) : ℚ :=
  (months.map (fun m => cmpFactMonth attendance fid m)).sum

/-- `build_comparison_data`: one entry per matched employee whose rounded
totals are not both zero (`if total_j > 0 or total_f > 0`).  The
`sorted(matched.items())` only permutes the output and is omitted. -/
def build_comparison_data (rawTasks : String → MonthKey → List ℚ)
    (attendance : ℕ → MonthKey → ℚ) (jd : String → DayKey → ℚ)
    (fd : ℕ → DayKey → ℚ) (months : List MonthKey)
    (matched : List (String × ℕ)) : List (String × PersonCmp) :=
  matched.filterMap (fun p =>
    if 0 < cmpTotalJ rawTasks months p.1 ∨ 0 < cmpTotalF attendance months p.2
    then some (p.1, ⟨personMonths rawTasks attendance jd fd months p.1 p.2⟩)
    else none)

/- ── Concrete inputs used by counterexamples and witnesses ──────── -/

/-- Two worklogs of 144 seconds (0.04 h) on two issues of one project in one
month. -/
def cexWL : List DPWorklog :=
  [⟨"u", 144, some ⟨2024, 1, 5⟩, "A-1"⟩, ⟨"u", 144, some ⟨2024, 1, 6⟩, "A-2"⟩]

/-- A daily-hours map with 0.04 raw hours on 2024-01-05 and nothing else. -/
def cexJiraDaily : DayKey → ℚ := fun d => if d = (2024, 1, 5) then 1/25 else 0

/-- The all-zero daily map. -/
def zeroDaily : DayKey → ℚ := fun _ => 0

/-- A worklog with a valid in-range date but zero (or missing) duration. -/
def cexFetchWL : FetchWorklog := ⟨"acc1", "u", some ⟨2024, 1, 10⟩, 0, "A-1"⟩

/-- An employee with no termination date whose start date lies after the
report range. -/
def cexFutureEmp : FactEmployee := ⟨"Future Person", some "2030-01-01", none⟩

/-- A leave record whose start date does not parse. -/
def cexLeave : LeaveRec := ⟨"not-a-date", "2024-02-02", "Vacation", "approved"⟩

/-- The month-boundary leave of the spec's example. -/
def exLeave : LeaveRec := ⟨"2024-01-30", "2024-02-02", "Vacation", "approved"⟩

/-- A leave feed holding only `cexLeave`, for employee 7. -/
def cexLeavesMap : ℕ → List LeaveRec := fun fid => if fid = 7 then [cexLeave] else []

/-- One task cell with 2.5 h, for the transition-attribution witness. -/
def exTasks : List RTask := [⟨"u", (2024, 1), "A-1", "Fix", 5/2⟩]

/-- Two change events on issue `A-1`. -/
def exChanges : List (String × List ChangeEv) :=
  [("A-1", [⟨"2024-02-03", "C1", "C2"⟩, ⟨"2024-03-04", "C2", "C3"⟩])]

/-- Membership test for `exChanges` (`key in client_changes`). -/
def exChangedKeys : String → Bool := fun k => k == "A-1"

/-- The `issue_worklogs` entry produced for `A-1` from `exTasks`. -/
def exIWInfo : IWEntry :=
  ⟨"Fix", fun m u => if m = (2024, 1) ∧ u = "u" then round1 (0 + 5/2) else 0⟩

/-- A one-person task feed: 2.5 h in 2024-01 for user `Ana`. -/
def exRawTasksF : String → MonthKey → List ℚ :=
  fun name m => if name = "Ana" ∧ m = (2024, 1) then [5/2] else []

/-- The all-zero attendance feed. -/
def zeroAttendance : ℕ → MonthKey → ℚ := fun _ _ => 0

/-- The all-zero per-user daily feed. -/
def zeroDailyJ : String → DayKey → ℚ := fun _ _ => 0

/-- The all-zero per-employee daily feed. -/
def zeroDailyF : ℕ → DayKey → ℚ := fun _ _ => 0

/- ══ Helper lemmas ══════════════════════════════════════════════ -/

/-- Evaluation of `round1` when the scaled value rounds down. -/
theorem round1_round_down (q : ℚ) (k : ℤ) (h1 : (k : ℚ) ≤ q * 10)
    (h2 : q * 10 - (k : ℚ) < 1/2) : round1 q = (k : ℚ)/10 := by
  have hf : ⌊q * 10⌋ = k := by
    rw [Int.floor_eq_iff]
    exact ⟨h1, by linarith⟩
  rw [round1, halfEven]
  simp only [hf]
  rw [if_pos (by linarith)]

/-- Evaluation of `round1` when the scaled value rounds up. -/
theorem round1_round_up (q : ℚ) (k : ℤ) (h1 : (k : ℚ) + 1/2 < q * 10)
    (h2 : q * 10 < (k : ℚ) + 1) : round1 q = ((k : ℚ) + 1)/10 := by
  have hf : ⌊q * 10⌋ = k := by
    rw [Int.floor_eq_iff]
    exact ⟨by linarith, by linarith⟩
  rw [round1, halfEven]
  simp only [hf]
  rw [if_neg (by linarith), if_pos (by linarith)]
  push_cast
  ring

theorem dpTree_concat (wls : List DPWorklog) (w : DPWorklog) :
    dpTree (wls ++ [w]) = dpStep (dpTree wls) w := by
  simp [dpTree, List.foldl_append]

theorem flatIssue_concat (l : List DPWorklog) (w : DPWorklog) (u p i : String)
    (m : MonthKey) :
    flatIssue (l ++ [w]) u p i m =
      flatIssue l u p i m +
        (if dpMatchP w u p m && w.issueKey == i then dpHours w else 0) := by
  by_cases h : (dpMatchP w u p m && w.issueKey == i) = true
  · simp [flatIssue, List.filter_append, List.filter_cons, h]
  · simp [flatIssue, List.filter_append, List.filter_cons, h]

/-- The issue-level contribution test, unfolded for a live worklog. -/
theorem dpCondI_iff (w : DPWorklog) (d : PDate) (hw : w.started = some d)
    (hs : w.timeSpentSeconds ≠ 0) (u p i : String) (m : MonthKey) :
    (dpMatchP w u p m && w.issueKey == i) = true ↔
      (u = w.displayName ∧ p = projectOf w.issueKey ∧ i = w.issueKey ∧
        m = monthOf d) := by
  simp only [dpMatchP, dpMatchU, dpValid, hw, Option.isSome_some, Option.map_some',
    Bool.true_and, Bool.and_eq_true, beq_iff_eq, bne_iff_ne, ne_eq,
    Option.some.injEq]
  constructor
  · rintro ⟨⟨⟨⟨-, h1⟩, h2⟩, h3⟩, h4⟩
    exact ⟨h1.symm, h3.symm, h4.symm, h2.symm⟩
  · rintro ⟨h1, h2, h3, h4⟩
    exact ⟨⟨⟨⟨hs, h1.symm⟩, h4.symm⟩, h2.symm⟩, h3.symm⟩

/-- `dpStep` applied to a live worklog, as a pointwise conditional bump. -/
theorem dpStep_apply (t : String → String → String → MonthKey → ℚ)
    (w : DPWorklog) (d : PDate) (hw : w.started = some d)
    (hs : w.timeSpentSeconds ≠ 0) (u p i : String) (m : MonthKey) :
    dpStep t w u p i m =
      if u = w.displayName ∧ p = projectOf w.issueKey ∧ i = w.issueKey ∧
          m = monthOf d
      then t u p i m + dpHours w else t u p i m := by
  simp only [dpStep, hw]
  rw [if_neg hs]

/-- The `_hours_report` tree leaf holds exactly the flat sum of the matching
valid worklogs' hours. -/
theorem dpTree_eq_flatIssue (wls : List DPWorklog) (u p i : String) (m : MonthKey) :
    dpTree wls u p i m = flatIssue wls u p i m := by
  induction wls using List.reverseRecOn with
  | nil => simp [dpTree, flatIssue]
  | append_singleton l w ih =>
      rw [dpTree_concat, flatIssue_concat, ← ih]
      cases hw : w.started with
      | none =>
          simp [dpStep, dpMatchP, dpMatchU, dpValid, hw]
      | some d =>
          by_cases hs : w.timeSpentSeconds = 0
          · simp [dpStep, dpMatchP, dpMatchU, dpValid, hs, hw]
          · have hbi := dpCondI_iff w d hw hs u p i m
            rw [dpStep_apply (dpTree l) w d hw hs]
            by_cases hb : (dpMatchP w u p m && w.issueKey == i) = true
            · rw [if_pos (hbi.mp hb), if_pos hb]
            · have hc : ¬(u = w.displayName ∧ p = projectOf w.issueKey ∧
                  i = w.issueKey ∧ m = monthOf d) := fun hh => hb (hbi.mpr hh)
              rw [if_neg hc, if_neg hb, add_zero]

theorem dpIssueSet_concat (l : List DPWorklog) (w : DPWorklog) (u p : String) :
    dpIssueSet (l ++ [w]) u p =
      if dpValid w && w.displayName == u && projectOf w.issueKey == p
      then insert w.issueKey (dpIssueSet l u p) else dpIssueSet l u p := by
  simp [dpIssueSet, List.foldl_append]

theorem mem_dpIssueSet (wls : List DPWorklog) (u p i : String) :
    i ∈ dpIssueSet wls u p ↔
      ∃ w ∈ wls,
        (dpValid w && w.displayName == u && projectOf w.issueKey == p) = true ∧
          w.issueKey = i := by
  induction wls using List.reverseRecOn with
  | nil => simp [dpIssueSet]
  | append_singleton l w ih =>
      rw [dpIssueSet_concat]
      by_cases h : (dpValid w && w.displayName == u && projectOf w.issueKey == p) = true
      · rw [if_pos h]
        simp only [Finset.mem_insert, ih]
        constructor
        · rintro (rfl | ⟨w', hw', hc', rfl⟩)
          · exact ⟨w, by simp, h, rfl⟩
          · exact ⟨w', by simp [hw'], hc', rfl⟩
        · rintro ⟨w', hw', hc', rfl⟩
          rcases List.mem_append.mp hw' with hl | hr
          · exact Or.inr ⟨w', hl, hc', rfl⟩
          · simp only [List.mem_singleton] at hr
            subst hr
            exact Or.inl rfl
      · rw [if_neg h, ih]
        constructor
        · rintro ⟨w', hw', hc', rfl⟩
          exact ⟨w', by simp [hw'], hc', rfl⟩
        · rintro ⟨w', hw', hc', rfl⟩
          rcases List.mem_append.mp hw' with hl | hr
          · exact ⟨w', hl, hc', rfl⟩
          · simp only [List.mem_singleton] at hr
            subst hr
            exact absurd hc' h

theorem dpProjSet_concat (l : List DPWorklog) (w : DPWorklog) (u : String) :
    dpProjSet (l ++ [w]) u =
      if dpValid w && w.displayName == u
      then insert (projectOf w.issueKey) (dpProjSet l u) else dpProjSet l u := by
  simp [dpProjSet, List.foldl_append]

theorem mem_dpProjSet (wls : List DPWorklog) (u p : String) :
    p ∈ dpProjSet wls u ↔
      ∃ w ∈ wls,
        (dpValid w && w.displayName == u) = true ∧ projectOf w.issueKey = p := by
  induction wls using List.reverseRecOn with
  | nil => simp [dpProjSet]
  | append_singleton l w ih =>
      rw [dpProjSet_concat]
      by_cases h : (dpValid w && w.displayName == u) = true
      · rw [if_pos h]
        simp only [Finset.mem_insert, ih]
        constructor
        · rintro (rfl | ⟨w', hw', hc', rfl⟩)
          · exact ⟨w, by simp, h, rfl⟩
          · exact ⟨w', by simp [hw'], hc', rfl⟩
        · rintro ⟨w', hw', hc', rfl⟩
          rcases List.mem_append.mp hw' with hl | hr
          · exact Or.inr ⟨w', hl, hc', rfl⟩
          · simp only [List.mem_singleton] at hr
            subst hr
            exact Or.inl rfl
      · rw [if_neg h, ih]
        constructor
        · rintro ⟨w', hw', hc', rfl⟩
          exact ⟨w', by simp [hw'], hc', rfl⟩
        · rintro ⟨w', hw', hc', rfl⟩
          rcases List.mem_append.mp hw' with hl | hr
          · exact ⟨w', hl, hc', rfl⟩
          · simp only [List.mem_singleton] at hr
            subst hr
            exact absurd hc' h

/-- Summing a filtered list fiberwise over any superset of the occurring
keys recovers the unfibered sum. -/
theorem sum_filter_fiber {α κ : Type} [DecidableEq κ] (l : List α) (φ : α → Bool)
    (key : α → κ) (h : α → ℚ) (S : Finset κ)
    (hs : ∀ w ∈ l, φ w = true → key w ∈ S) :
    Finset.sum S (fun i => ((l.filter (fun w => φ w && (key w == i))).map h).sum) =
      ((l.filter φ).map h).sum := by
  induction l with
  | nil => simp
  | cons a l ih =>
      have hs' : ∀ w ∈ l, φ w = true → key w ∈ S :=
        fun w hw => hs w (List.mem_cons_of_mem a hw)
      by_cases ha : φ a = true
      · have hka : key a ∈ S := hs a (List.mem_cons_self a l) ha
        have hstep : ∀ i : κ,
            ((List.filter (fun w => φ w && (key w == i)) (a :: l)).map h).sum =
              (if key a = i then h a else 0) +
                ((List.filter (fun w => φ w && (key w == i)) l).map h).sum := by
          intro i
          by_cases hi : key a = i
          · simp [List.filter_cons, ha, hi]
          · simp [List.filter_cons, ha, hi]
        rw [Finset.sum_congr rfl (fun i _ => hstep i), Finset.sum_add_distrib,
          Finset.sum_ite_eq S (key a) (fun _ => h a), if_pos hka,
          ih hs', List.filter_cons, if_pos (by simp [ha])]
        simp
      · have hstep : ∀ i : κ,
            ((List.filter (fun w => φ w && (key w == i)) (a :: l)).map h).sum =
              ((List.filter (fun w => φ w && (key w == i)) l).map h).sum := by
          intro i
          simp [List.filter_cons, ha]
        rw [Finset.sum_congr rfl (fun i _ => hstep i), ih hs', List.filter_cons,
          if_neg (by simp [ha])]

/-- The raw project month value is the flat sum of the project's matching
worklogs. -/
theorem dpProjMonths_eq_flatProj (wls : List DPWorklog) (u p : String)
    (m : MonthKey) :
    dpProjMonths wls u p m = flatProj wls u p m := by
  have hs : ∀ w ∈ wls, dpMatchP w u p m = true →
      w.issueKey ∈ dpIssueSet wls u p := by
    intro w hw hmatch
    rw [mem_dpIssueSet]
    refine ⟨w, hw, ?_, rfl⟩
    simp only [dpMatchP, dpMatchU, Bool.and_eq_true] at hmatch
    simp [hmatch.1.1.1, hmatch.1.1.2, hmatch.2]
  have h := sum_filter_fiber wls (fun w => dpMatchP w u p m) (fun w => w.issueKey)
    dpHours (dpIssueSet wls u p) hs
  calc dpProjMonths wls u p m
      = Finset.sum (dpIssueSet wls u p) (fun i => flatIssue wls u p i m) :=
        Finset.sum_congr rfl (fun i _ => dpTree_eq_flatIssue wls u p i m)
    _ = ((wls.filter (fun w => dpMatchP w u p m)).map dpHours).sum := h
    _ = flatProj wls u p m := rfl

/-- The raw user month value is the flat sum of the user's matching
worklogs. -/
theorem dpUserMonths_eq_flatUser (wls : List DPWorklog) (u : String)
    (m : MonthKey) :
    dpUserMonths wls u m = flatUser wls u m := by
  have hs : ∀ w ∈ wls, dpMatchU w u m = true →
      projectOf w.issueKey ∈ dpProjSet wls u := by
    intro w hw hmatch
    rw [mem_dpProjSet]
    refine ⟨w, hw, ?_, rfl⟩
    simp only [dpMatchU, Bool.and_eq_true] at hmatch
    simp [hmatch.1.1, hmatch.1.2]
  have h := sum_filter_fiber wls (fun w => dpMatchU w u m)
    (fun w => projectOf w.issueKey) dpHours (dpProjSet wls u) hs
  calc dpUserMonths wls u m
      = Finset.sum (dpProjSet wls u) (fun p => flatProj wls u p m) :=
        Finset.sum_congr rfl (fun p _ => dpProjMonths_eq_flatProj wls u p m)
    _ = ((wls.filter (fun w => dpMatchU w u m)).map dpHours).sum := h
    _ = flatUser wls u m := rfl

theorem dpUserSet_concat (l : List DPWorklog) (w : DPWorklog) :
    dpUserSet (l ++ [w]) =
      if dpValid w then insert w.displayName (dpUserSet l) else dpUserSet l := by
  simp [dpUserSet, List.foldl_append]

theorem dpMonthSet_concat (l : List DPWorklog) (w : DPWorklog) :
    dpMonthSet (l ++ [w]) =
      (match w.started with
       | none => dpMonthSet l
       | some d =>
           if w.timeSpentSeconds = 0 then dpMonthSet l
           else insert (monthOf d) (dpMonthSet l)) := by
  simp only [dpMonthSet, List.foldl_append, List.foldl_cons, List.foldl_nil]

theorem fetchHours_concat (allowed : List String) (dtFrom dtTo : PDate)
    (l : List FetchWorklog) (w : FetchWorklog) :
    fetchHours allowed dtFrom dtTo (l ++ [w]) =
      fetchStep allowed dtFrom dtTo (fetchHours allowed dtFrom dtTo l) w := by
  simp [fetchHours, List.foldl_append]

theorem fetchKeys_concat (allowed : List String) (dtFrom dtTo : PDate)
    (l : List FetchWorklog) (w : FetchWorklog) :
    fetchKeys allowed dtFrom dtTo (l ++ [w]) =
      (match w.started with
       | none => fetchKeys allowed dtFrom dtTo l
       | some d =>
           if fetchOk allowed dtFrom dtTo w then
             insert (w.authorName, monthOf d, w.issueKey) (fetchKeys allowed dtFrom dtTo l)
           else fetchKeys allowed dtFrom dtTo l) := by
  simp only [fetchKeys, List.foldl_append, List.foldl_cons, List.foldl_nil]

theorem fetchDaily_concat (allowed : List String) (dtFrom dtTo : PDate)
    (l : List FetchWorklog) (w : FetchWorklog) :
    fetchDaily allowed dtFrom dtTo (l ++ [w]) =
      (match w.started with
       | none => fetchDaily allowed dtFrom dtTo l
       | some d =>
           if fetchOk allowed dtFrom dtTo w then
             fun k => if k = (w.authorName, dayOf d)
               then fetchDaily allowed dtFrom dtTo l k + fetchHoursOf w
               else fetchDaily allowed dtFrom dtTo l k
           else fetchDaily allowed dtFrom dtTo l) := by
  simp only [fetchDaily, List.foldl_append, List.foldl_cons, List.foldl_nil]

/- ══ Claim C2 — archival cutoff ═════════════════════════════════ -/

/-- C2 (counterexample): the claim predicts `archived = false` for every run
date up to 2024-05-31 for an employee terminated on 2024-03-15, but on the
run date 2024-05-15 (which is ≤ 2024-05-31) the code computes
`archived = true`: the cutoff is 2024-05-01, not 2024-06-01. -/
theorem archival_cutoff_cex :
    is_archived ⟨2024, 5, 15⟩ ⟨2024, 3, 15⟩ = true ∧
      dateLeB ⟨2024, 5, 15⟩ ⟨2024, 5, 31⟩ = true := by
  decide

/-- C2 (amended): an employee becomes archived on the first day of the
second month after the termination month (so only the month of termination
and the following month remain unarchived): terminated 2024-03-15 means
archived exactly from 2024-05-01; November and December terminations wrap
into the next year (Nov → Jan 1, Dec → Feb 1).  The same `archiveCutoff`
computation is used by both the email path and the name-based fallback. -/
theorem archival_cutoff_amended (today : PDate) :
    is_archived today ⟨2024, 3, 15⟩ = dateLeB ⟨2024, 5, 1⟩ today
  ∧ is_archived today ⟨2023, 11, 20⟩ = dateLeB ⟨2024, 1, 1⟩ today
  ∧ is_archived today ⟨2023, 12, 5⟩ = dateLeB ⟨2024, 2, 1⟩ today
  ∧ (∀ term : PDate, term.month + 2 ≤ 12 →
      archiveCutoff term = ⟨term.year, term.month + 2, 1⟩)
  ∧ (∀ term : PDate, 12 < term.month + 2 →
      archiveCutoff term = ⟨term.year + 1, term.month + 2 - 12, 1⟩) := by
  refine ⟨rfl, rfl, rfl, ?_, ?_⟩
  · intro term h
    simp only [archiveCutoff]
    rw [if_neg (by omega)]
  · intro term h
    simp only [archiveCutoff]
    rw [if_pos (by omega)]

/-- C2 (witness for the amended theorem). -/
theorem archival_cutoff_amended_witness :
    is_archived ⟨2024, 6, 1⟩ ⟨2024, 3, 15⟩ = dateLeB ⟨2024, 5, 1⟩ ⟨2024, 6, 1⟩ ∧
      archiveCutoff ⟨2024, 3, 15⟩ = ⟨2024, 5, 1⟩ :=
  ⟨(archival_cutoff_amended ⟨2024, 6, 1⟩).1,
    (archival_cutoff_amended ⟨2024, 6, 1⟩).2.2.2.1 ⟨2024, 3, 15⟩ (by decide)⟩

/- ══ Claim C3 — variance computation and severity bands ═════════ -/

/-- C3: `diff = reported − captured`; `pct` agrees with the spec formula
(`|diff| / captured * 100` when `captured > 0`, else 100/0); bands are
`pct ≤ 10` normal, `10 < pct ≤ 25` warning, `pct > 25` critical; and the
boundary examples: reported 11 vs captured 10 gives diff 1, pct 10, normal
(boundary inclusive); 13 vs 10 gives pct 30, critical. -/
theorem variance_bands (j f : ℚ) :
    cpDiff j f = j - f
  ∧ cpPct j f = specPct j f
  ∧ (cpBand (cpPct j f) = Severity.normal ↔ cpPct j f ≤ 10)
  ∧ (cpBand (cpPct j f) = Severity.warning ↔ 10 < cpPct j f ∧ cpPct j f ≤ 25)
  ∧ (cpBand (cpPct j f) = Severity.critical ↔ 25 < cpPct j f)
  ∧ cpDiff 11 10 = 1 ∧ cpPct 11 10 = 10 ∧ cpBand (cpPct 11 10) = Severity.normal
  ∧ cpPct 13 10 = 30 ∧ cpBand (cpPct 13 10) = Severity.critical := by
  have hpct : cpPct j f = specPct j f := by
    unfold cpPct specPct cpDiff
    by_cases hb : 0 < f
    · rw [if_pos hb, if_pos hb, abs_mul, abs_div, abs_of_pos hb,
        abs_of_pos (by norm_num : (0:ℚ) < 100)]
    · rw [if_neg hb, if_neg hb]
  have hband : ∀ x : ℚ, (cpBand x = Severity.normal ↔ x ≤ 10) ∧
      (cpBand x = Severity.warning ↔ 10 < x ∧ x ≤ 25) ∧
      (cpBand x = Severity.critical ↔ 25 < x) := by
    intro x
    by_cases h1 : x ≤ 10
    · rw [cpBand, if_pos h1]
      exact ⟨⟨fun _ => h1, fun _ => rfl⟩,
        ⟨fun h => absurd h (by decide), fun h => absurd h1 (not_le.mpr h.1)⟩,
        ⟨fun h => absurd h (by decide), fun h => absurd h1 (not_le.mpr (by linarith))⟩⟩
    · by_cases h2 : x ≤ 25
      · rw [cpBand, if_neg h1, if_pos h2]
        exact ⟨⟨fun h => absurd h (by decide), fun h => absurd h h1⟩,
          ⟨fun _ => ⟨not_le.mp h1, h2⟩, fun _ => rfl⟩,
          ⟨fun h => absurd h (by decide), fun h => absurd h2 (not_le.mpr h)⟩⟩
      · rw [cpBand, if_neg h1, if_neg h2]
        exact ⟨⟨fun h => absurd h (by decide), fun h => absurd h h1⟩,
          ⟨fun h => absurd h (by decide), fun h => absurd h.2 h2⟩,
          ⟨fun _ => not_le.mp h2, fun _ => rfl⟩⟩
  have h10 : cpPct 11 10 = 10 := by
    rw [cpPct, if_pos (by norm_num : (0:ℚ) < 10), cpDiff,
      abs_of_nonneg (by norm_num : (0:ℚ) ≤ ((11:ℚ) - 10) / 10 * 100)]
    norm_num
  have h30 : cpPct 13 10 = 30 := by
    rw [cpPct, if_pos (by norm_num : (0:ℚ) < 10), cpDiff,
      abs_of_nonneg (by norm_num : (0:ℚ) ≤ ((13:ℚ) - 10) / 10 * 100)]
    norm_num
  refine ⟨rfl, hpct, (hband _).1, (hband _).2.1, (hband _).2.2,
    by norm_num [cpDiff], h10, ?_, h30, ?_⟩
  · rw [h10]; exact (hband 10).1.mpr (by norm_num)
  · rw [h30]; exact (hband 30).2.2.mpr (by norm_num)

/- ══ Claim C5 — leave day count and month attribution ═══════════ -/

/-- C5: a leave's day count is `max(1, (end − start).days + 1)`, both
endpoints counted; the spec's example 2024-01-30 → 2024-02-02 yields 4 days;
and the renderer groups a leave under the `"YYYY-MM"` of its start date even
across a month boundary (substring of the ISO string). -/
theorem leave_day_count :
    (leaveEntry exLeave).days = 4
  ∧ leaveMonthKey exLeave.start_date = "2024-01"
  ∧ (∀ lv : LeaveRec, ∀ d1 d2 : PDate, parseDate lv.start_date = some d1 →
      parseDate lv.end_date = some d2 →
      (leaveEntry lv).days = max 1 (toDays d2 - toDays d1 + 1))
  ∧ (∀ dt : PDate, leaveMonthKey (isoOf dt) = monthKeyStr dt.year dt.month) := by
  refine ⟨by decide, by decide, ?_, ?_⟩
  · intro lv d1 d2 h1 h2
    simp [leaveEntry, h1, h2]
  · intro dt
    simp [leaveMonthKey, isoOf, monthKeyStr, fourDigits, twoDigits, List.take_succ_cons]

/-- C5 (witness): the general day-count formula applied to the concrete
month-boundary leave. -/
theorem leave_day_count_witness :
    (leaveEntry exLeave).days =
      max 1 (toDays ⟨2024, 2, 2⟩ - toDays ⟨2024, 1, 30⟩ + 1) :=
  leave_day_count.2.2.1 exLeave ⟨2024, 1, 30⟩ ⟨2024, 2, 2⟩ (by decide) (by decide)

/- ══ Claim C6 — candidate exclusion by employment overlap ═══════ -/

/-- C6 (counterexample): an employee with *no* termination date whose start
date (2030-01-01) lies after the range end (2024-02-29) is still admitted as
a candidate — the overlap filter only applies to terminated employees, so
the claim's "whether or not they have a termination date" fails. -/
theorem candidate_overlap_cex :
    find_candidates "2024-01-01" "2024-02-29"
        [("future@example.com", cexFutureEmp)] =
      [("future@example.com", cexFutureEmp)]
  ∧ cexFutureEmp.terminated_on = none
  ∧ strLtB "2024-02-29" "2030-01-01" = true := by
  refine ⟨?_, rfl, by decide⟩
  decide

/-- C6 (amended): only employees *with* a termination date are subject to
the overlap filter (skipped iff `start_date > range_end` or
`terminated_on < range_start`, with `start_date` defaulting to 2000-01-01);
employees without a termination date are always searched. -/
theorem candidate_overlap_amended (rs re : String)
    (emps : List (String × FactEmployee)) (email : String) (emp : FactEmployee)
    (hmem : (email, emp) ∈ emps) :
    (emp.terminated_on = none → (email, emp) ∈ find_candidates rs re emps)
  ∧ (∀ term, emp.terminated_on = some term →
      ((email, emp) ∈ find_candidates rs re emps ↔
        ¬(strLtB re (startOrDefault emp) = true ∨ strLtB term rs = true))) := by
  constructor
  · intro h
    rw [find_candidates, List.mem_filter]
    exact ⟨hmem, by simp [candidateKept, h]⟩
  · intro term h
    rw [find_candidates, List.mem_filter]
    simp [candidateKept, h, hmem]

/-- C6 (witness for the amended theorem). -/
theorem candidate_overlap_amended_witness :
    ("future@example.com", cexFutureEmp) ∈
      find_candidates "2024-01-01" "2024-02-29"
        [("future@example.com", cexFutureEmp)] :=
  (candidate_overlap_amended "2024-01-01" "2024-02-29"
      [("future@example.com", cexFutureEmp)] "future@example.com" cexFutureEmp
      (by simp)).1 rfl

/- ══ Claim C8 — malformed leave records ═════════════════════════ -/

/-- C8 (counterexample): a leave record whose start date does not parse is
*not* dropped — `build_leaves_data` catches the parse error, sets
`days = 1` and still emits the entry. -/
theorem leave_malformed_cex :
    build_leaves_data [("Ana", 7)] cexLeavesMap =
      [("Ana", [⟨"not-a-date", "2024-02-02", "Vacation", "approved", 1⟩])] := by
  decide

/-- C8 (amended): a leave record with malformed/unparsable dates does not
stop the run and is not dropped either: it is kept in the per-employee
output with the fallback day count 1. -/
theorem leave_malformed_amended (matched : List (String × ℕ))
    (leaves : ℕ → List LeaveRec) (name : String) (fid : ℕ) (lv : LeaveRec)
    (hmem : (name, fid) ∈ matched) (hlv : lv ∈ leaves fid)
    (hbad : parseDate lv.start_date = none ∨ parseDate lv.end_date = none) :
    (leaveEntry lv).days = 1 ∧
      ∃ es, (name, es) ∈ build_leaves_data matched leaves ∧ leaveEntry lv ∈ es := by
  constructor
  · rcases hbad with h | h
    · simp [leaveEntry, h]
    · cases h2 : parseDate lv.start_date <;> simp [leaveEntry, h, h2]
  · refine ⟨(leaves fid).map leaveEntry, ?_, List.mem_map_of_mem leaveEntry hlv⟩
    rw [build_leaves_data, List.mem_filterMap]
    refine ⟨(name, fid), hmem, ?_⟩
    cases hL : leaves fid with
    | nil => rw [hL] at hlv; cases hlv
    | cons a l => rfl

/-- C8 (witness for the amended theorem). -/
theorem leave_malformed_amended_witness :
    (leaveEntry cexLeave).days = 1 ∧
      ∃ es, ("Ana", es) ∈ build_leaves_data [("Ana", 7)] cexLeavesMap ∧
        leaveEntry cexLeave ∈ es :=
  leave_malformed_amended [("Ana", 7)] cexLeavesMap "Ana" 7 cexLeave
    (by simp) (by decide) (Or.inl (by decide))

/- ══ Claim C7 — zero/missing duration entries ═══════════════════ -/

/-- `fetchStep` applied to an admitted worklog, as a pointwise conditional
bump. -/
theorem fetchStep_apply (allowed : List String) (dtFrom dtTo : PDate)
    (t : String × MonthKey × String → ℚ) (w : FetchWorklog) (d : PDate)
    (hw : w.started = some d) (hok : fetchOk allowed dtFrom dtTo w = true)
    (k : String × MonthKey × String) :
    fetchStep allowed dtFrom dtTo t w k =
      if k = (w.authorName, monthOf d, w.issueKey) then t k + fetchHoursOf w
      else t k := by
  simp only [fetchStep, hw]
  rw [if_pos hok]

/-- C7 (counterexample): a worklog with an in-range start date but zero (or
missing) duration still creates its `(user, month, issue)` node in the `raw`
tree of `fetch_worklogs` — the zero-duration drop only happens in
`_hours_report`, not in `fetch_worklogs`. -/
theorem zero_duration_cex :
    ("u", ((2024, 1) : MonthKey), "A-1") ∈
      fetchKeys [] ⟨2024, 1, 1⟩ ⟨2024, 2, 1⟩ [cexFetchWL]
  ∧ cexFetchWL.timeSpentSeconds = 0
  ∧ fetchHours [] ⟨2024, 1, 1⟩ ⟨2024, 2, 1⟩ [cexFetchWL] ("u", (2024, 1), "A-1") = 0 := by
  refine ⟨by decide, rfl, ?_⟩
  have hok : fetchOk [] ⟨2024, 1, 1⟩ ⟨2024, 2, 1⟩ cexFetchWL = true := by decide
  have hw : cexFetchWL.started = some ⟨2024, 1, 10⟩ := rfl
  have h0 : fetchHours [] ⟨2024, 1, 1⟩ ⟨2024, 2, 1⟩ [cexFetchWL] =
      fetchStep [] ⟨2024, 1, 1⟩ ⟨2024, 2, 1⟩ (fun _ => 0) cexFetchWL := rfl
  rw [h0, fetchStep_apply [] ⟨2024, 1, 1⟩ ⟨2024, 2, 1⟩ (fun _ => 0) cexFetchWL
    ⟨2024, 1, 10⟩ hw hok, if_pos (by decide)]
  norm_num [fetchHoursOf, cexFetchWL]

/-- C7 (amended): `_hours_report` does drop zero/missing-duration worklogs —
appending one changes neither its tree nor any of its key sets — while
`fetch_worklogs` merely adds zero hours but still creates the node: its hour
and daily maps are unchanged, yet the `(user, month, issue)` key joins the
`raw` tree whenever the date/allow-list admission passes. -/
theorem zero_duration_amended (wls : List DPWorklog) (w : DPWorklog)
    (fwls : List FetchWorklog) (fw : FetchWorklog) (allowed : List String)
    (dtFrom dtTo : PDate) (hw : w.timeSpentSeconds = 0)
    (hfw : fw.timeSpentSeconds = 0) :
    dpTree (wls ++ [w]) = dpTree wls
  ∧ (∀ u p, dpIssueSet (wls ++ [w]) u p = dpIssueSet wls u p)
  ∧ (∀ u, dpProjSet (wls ++ [w]) u = dpProjSet wls u)
  ∧ dpUserSet (wls ++ [w]) = dpUserSet wls
  ∧ dpMonthSet (wls ++ [w]) = dpMonthSet wls
  ∧ fetchHours allowed dtFrom dtTo (fwls ++ [fw]) = fetchHours allowed dtFrom dtTo fwls
  ∧ fetchDaily allowed dtFrom dtTo (fwls ++ [fw]) = fetchDaily allowed dtFrom dtTo fwls
  ∧ (∀ d, fw.started = some d → fetchOk allowed dtFrom dtTo fw = true →
      (fw.authorName, monthOf d, fw.issueKey) ∈
        fetchKeys allowed dtFrom dtTo (fwls ++ [fw])) := by
  refine ⟨?_, ?_, ?_, ?_, ?_, ?_, ?_, ?_⟩
  · rw [dpTree_concat]
    cases hww : w.started <;> simp [dpStep, hww, hw]
  · intro u p
    rw [dpIssueSet_concat]
    simp [dpValid, hw]
  · intro u
    rw [dpProjSet_concat]
    simp [dpValid, hw]
  · rw [dpUserSet_concat]
    simp [dpValid, hw]
  · rw [dpMonthSet_concat]
    cases hww : w.started <;> simp [hww, hw]
  · rw [fetchHours_concat]
    cases hww : fw.started with
    | none => simp [fetchStep, hww]
    | some d =>
        by_cases hok : fetchOk allowed dtFrom dtTo fw = true
        · funext k
          rw [fetchStep_apply allowed dtFrom dtTo _ fw d hww hok]
          split <;> simp [fetchHoursOf, hfw]
        · simp [fetchStep, hww, hok]
  · rw [fetchDaily_concat]
    cases hww : fw.started with
    | none => rfl
    | some d =>
        by_cases hok : fetchOk allowed dtFrom dtTo fw = true
        · funext k
          simp [hok, fetchHoursOf, hfw]
        · simp [hok]
  · intro d hd hok
    rw [fetchKeys_concat]
    simp only [hd]
    rw [if_pos hok]
    exact Finset.mem_insert_self _ _

/-- C7 (witness for the amended theorem). -/
theorem zero_duration_amended_witness :
    dpTree ([] ++ [(⟨"u", 0, some ⟨2024, 1, 5⟩, "A-1"⟩ : DPWorklog)]) = dpTree []
  ∧ (cexFetchWL.authorName, monthOf ⟨2024, 1, 10⟩, cexFetchWL.issueKey) ∈
      fetchKeys [] ⟨2024, 1, 1⟩ ⟨2024, 2, 1⟩ ([] ++ [cexFetchWL]) :=
  ⟨(zero_duration_amended [] ⟨"u", 0, some ⟨2024, 1, 5⟩, "A-1"⟩ [] cexFetchWL []
      ⟨2024, 1, 1⟩ ⟨2024, 2, 1⟩ rfl rfl).1,
   (zero_duration_amended [] ⟨"u", 0, some ⟨2024, 1, 5⟩, "A-1"⟩ [] cexFetchWL []
      ⟨2024, 1, 1⟩ ⟨2024, 2, 1⟩ rfl rfl).2.2.2.2.2.2.2 ⟨2024, 1, 10⟩ rfl (by decide)⟩

/- ══ Claim C1 — tree-sum invariant of the hours rollup ══════════ -/

/-- C1 (counterexample): two issues of 0.04 h each in one month: the
project's emitted month value is `round(0.08, 1) = 0.1`, but the sum of its
issues' emitted values is `round(0.04, 1) + round(0.04, 1) = 0` — after the
one-decimal rounding of the emitted structure, a parent's value is *not* the
sum of its children's emitted values. -/
theorem hours_report_rounding_cex :
    projEmit cexWL "u" "A" (2024, 1) ≠
      Finset.sum (dpIssueSet cexWL "u" "A")
        (fun i => issueEmit cexWL "u" "A" i (2024, 1)) := by
  have hset : dpIssueSet cexWL "u" "A" = {"A-1", "A-2"} := by decide
  have hf1 : cexWL.filter
      (fun w => dpMatchP w "u" "A" (2024, 1) && w.issueKey == "A-1") =
      [⟨"u", 144, some ⟨2024, 1, 5⟩, "A-1"⟩] := by decide
  have hf2 : cexWL.filter
      (fun w => dpMatchP w "u" "A" (2024, 1) && w.issueKey == "A-2") =
      [⟨"u", 144, some ⟨2024, 1, 6⟩, "A-2"⟩] := by decide
  have hfP : cexWL.filter
      (fun w => dpMatchU w "u" (2024, 1) && projectOf w.issueKey == "A") =
      cexWL := by decide
  have ht1 : dpTree cexWL "u" "A" "A-1" (2024, 1) = 1/25 := by
    rw [dpTree_eq_flatIssue]
    simp only [flatIssue, hf1, List.map_cons, List.map_nil, List.sum_cons,
      List.sum_nil, dpHours]
    norm_num
  have ht2 : dpTree cexWL "u" "A" "A-2" (2024, 1) = 1/25 := by
    rw [dpTree_eq_flatIssue]
    simp only [flatIssue, hf2, List.map_cons, List.map_nil, List.sum_cons,
      List.sum_nil, dpHours]
    norm_num
  have hraw : dpProjMonths cexWL "u" "A" (2024, 1) = 2/25 := by
    rw [dpProjMonths_eq_flatProj]
    simp only [flatProj]
    rw [hfP]
    simp only [cexWL, List.map_cons, List.map_nil, List.sum_cons, List.sum_nil,
      dpHours]
    norm_num
  have hr1 : round1 ((1:ℚ)/25) = 0 := by
    have h := round1_round_down ((1:ℚ)/25) 0 (by norm_num) (by norm_num)
    simpa using h
  have hr2 : round1 ((2:ℚ)/25) = 1/10 := by
    have h := round1_round_up ((2:ℚ)/25) 0 (by norm_num) (by norm_num)
    simpa using h
  rw [hset, Finset.sum_insert (by decide), Finset.sum_singleton]
  simp only [projEmit, issueEmit, hraw, ht1, ht2, hr1, hr2]
  norm_num

/-- C1 (amended): the parent-equals-sum-of-children invariant holds exactly
for the *raw* (pre-rounding) accumulations at every level — a project's raw
month value is the sum of its issues' leaves, a user's the sum of their
projects', and both equal the flat sum of the underlying worklogs — while
each *emitted* value is the one-decimal rounding of its own exact sum (not
of its children's rounded values); the emitted `month_totals` and
`grand_total` do equal the exact sums of the emitted row values beneath
them, because re-rounding a sum of tenths is the identity. -/
theorem hours_report_amended (wls : List DPWorklog) (u p : String) (m : MonthKey) :
    dpProjMonths wls u p m =
        Finset.sum (dpIssueSet wls u p) (fun i => dpTree wls u p i m)
  ∧ dpUserMonths wls u m =
        Finset.sum (dpProjSet wls u) (fun pr => dpProjMonths wls u pr m)
  ∧ dpProjMonths wls u p m = flatProj wls u p m
  ∧ dpUserMonths wls u m = flatUser wls u m
  ∧ projEmit wls u p m =
      round1 (Finset.sum (dpIssueSet wls u p) (fun i => dpTree wls u p i m))
  ∧ userEmit wls u m = round1 (dpUserMonths wls u m)
  ∧ monthTotalEmit wls m = Finset.sum (dpUserSet wls) (fun v => userEmit wls v m)
  ∧ grandTotalEmit wls = Finset.sum (dpUserSet wls) (fun v => userTotalEmit wls v) := by
  refine ⟨rfl, rfl, dpProjMonths_eq_flatProj wls u p m,
    dpUserMonths_eq_flatUser wls u m, rfl, rfl, ?_, ?_⟩
  · exact round1_sum_round1 (dpUserSet wls) (fun v => dpUserMonths wls v m)
  · exact round1_sum_round1 (dpUserSet wls)
      (fun v => Finset.sum (dpMonthSet wls) (fun mm => dpUserMonths wls v mm))

/- ══ Claim C4 — transition attribution ══════════════════════════ -/

/-- Folding further change events never erases nor corrupts an entry at
`(label, k)` whose content matches `info` — any overwrite of key `k` comes
from `iw` with `iw = info` when the event list belongs to issue `k`. -/
theorem cdInner_preserve (info iw : IWEntry) (k kp : String)
    (hk : kp = k → iw = info) (evs : List ChangeEv)
    (acc : String → String → Option ChangeOut) (lbl : String)
    (h : ∃ e, acc lbl k = some e ∧ e.months = info.months ∧
      e.summary = info.summary) :
    ∃ e, (evs.foldl (cdInner iw kp) acc) lbl k = some e ∧
      e.months = info.months ∧ e.summary = info.summary := by
  induction evs generalizing acc with
  | nil => exact h
  | cons c evs ih =>
      refine ih (cdInner iw kp acc c) ?_
      by_cases hc : lbl = chLabel c ∧ k = kp
      · have hiw : iw = info := hk hc.2.symm
        subst hiw
        exact ⟨⟨iw.summary, c.date, iw.months⟩, by simp [cdInner, hc], rfl, rfl⟩
      · obtain ⟨e, he, hm, hsum⟩ := h
        exact ⟨e, by simp [cdInner, hc, he], hm, hsum⟩

/-- Processing the event list of issue `k` writes, under each event's label,
an entry holding the issue's full `months` map. -/
theorem cdInner_writes (info : IWEntry) (k : String) (ev : ChangeEv)
    (evs : List ChangeEv) (acc : String → String → Option ChangeOut)
    (hev : ev ∈ evs) :
    ∃ e, (evs.foldl (cdInner info k) acc) (chLabel ev) k = some e ∧
      e.months = info.months ∧ e.summary = info.summary := by
  induction evs generalizing acc with
  | nil => cases hev
  | cons c evs ih =>
      rcases List.mem_cons.mp hev with rfl | hev'
      · by_cases hin : ev ∈ evs
        · exact ih (cdInner info k acc ev) hin
        · refine cdInner_preserve info info k k (fun _ => rfl) evs
            (cdInner info k acc ev) (chLabel ev) ?_
          exact ⟨⟨info.summary, ev.date, info.months⟩, by simp [cdInner], rfl, rfl⟩
      · exact ih (cdInner info k acc c) hev'

/-- Folding further issues preserves a well-formed entry at `(label, k)`. -/
theorem changes_data_preserve (iwm : String → Option IWEntry) (info : IWEntry)
    (k : String) (hiw : iwm k = some info)
    (cc : List (String × List ChangeEv)) (acc : String → String → Option ChangeOut)
    (lbl : String)
    (h : ∃ e, acc lbl k = some e ∧ e.months = info.months ∧
      e.summary = info.summary) :
    ∃ e, (cc.foldl (cdStep iwm) acc) lbl k = some e ∧
      e.months = info.months ∧ e.summary = info.summary := by
  induction cc generalizing acc with
  | nil => exact h
  | cons pr cc ih =>
      refine ih (cdStep iwm acc pr) ?_
      cases hp : iwm pr.1 with
      | none =>
          have hstep : cdStep iwm acc pr = acc := by simp [cdStep, hp]
          rw [hstep]
          exact h
      | some iw =>
          have hstep : cdStep iwm acc pr = pr.2.foldl (cdInner iw pr.1) acc := by
            simp [cdStep, hp]
          rw [hstep]
          refine cdInner_preserve info iw k pr.1 ?_ pr.2 acc lbl h
          intro hkk
          rw [hkk] at hp
          rw [hp] at hiw
          exact Option.some.inj hiw

/-- Once the pair `(k, evs)` is processed, every event of `evs` has its
labelled entry for `k`, holding the issue's full `months` map. -/
theorem changes_data_writes (iwm : String → Option IWEntry) (info : IWEntry)
    (k : String) (evs : List ChangeEv) (ev : ChangeEv)
    (hiw : iwm k = some info) (hev : ev ∈ evs)
    (cc : List (String × List ChangeEv)) (acc : String → String → Option ChangeOut)
    (hcc : (k, evs) ∈ cc) :
    ∃ e, (cc.foldl (cdStep iwm) acc) (chLabel ev) k = some e ∧
      e.months = info.months ∧ e.summary = info.summary := by
  induction cc generalizing acc with
  | nil => cases hcc
  | cons pr cc ih =>
      rcases List.mem_cons.mp hcc with heq | hcc'
      · rw [List.foldl_cons]
        refine changes_data_preserve iwm info k hiw cc (cdStep iwm acc pr)
          (chLabel ev) ?_
        have hstep : cdStep iwm acc pr = evs.foldl (cdInner info k) acc := by
          rw [← heq]
          simp [cdStep, hiw]
        rw [hstep]
        exact cdInner_writes info k ev evs acc hev
      · rw [List.foldl_cons]
        exact ih (cdStep iwm acc pr) hcc'

/-- C4: for every recorded transition event of a work item that has logged
hours in range (i.e. has an `issue_worklogs` entry), `changes_data` holds,
under that event's `"{from} → {to}"` label, an entry carrying the work
item's *full* per-month (per-user) hour map — so with several events the
same full hours appear under each event's label, duplicated rather than
split. -/
theorem transition_attribution (iwm : String → Option IWEntry)
    (cc : List (String × List ChangeEv)) (k : String) (evs : List ChangeEv)
    (ev : ChangeEv) (info : IWEntry) (hcc : (k, evs) ∈ cc) (hev : ev ∈ evs)
    (hiw : iwm k = some info) :
    ∃ e, changes_data iwm cc (chLabel ev) k = some e ∧
      e.months = info.months ∧ e.summary = info.summary :=
  changes_data_writes iwm info k evs ev hiw hev cc (fun _ _ => none) hcc

/-- C4 (witness): both transition events of issue `A-1` receive its full
month map. -/
theorem transition_attribution_witness :
    ∃ e, changes_data (issue_worklogs exChangedKeys exTasks) exChanges
        (chLabel ⟨"2024-02-03", "C1", "C2"⟩) "A-1" = some e ∧
      e.months = exIWInfo.months ∧ e.summary = exIWInfo.summary :=
  transition_attribution (issue_worklogs exChangedKeys exTasks) exChanges "A-1"
    [⟨"2024-02-03", "C1", "C2"⟩, ⟨"2024-03-04", "C2", "C3"⟩]
    ⟨"2024-02-03", "C1", "C2"⟩ exIWInfo (List.mem_singleton.mpr rfl)
    (List.mem_cons_self _ _) rfl

/- ══ Claims C9/C10 — reconciliation day retention and inclusion ═ -/

/-- `round(0, 1) = 0`. -/
theorem round1_zero : round1 0 = 0 := by
  have h := round1_round_down 0 0 (by norm_num) (by norm_num)
  simpa using h

/-- `round(0.04, 1) = 0`. -/
theorem round1_one_twentyfifth : round1 ((1:ℚ)/25) = 0 := by
  have h := round1_round_down ((1:ℚ)/25) 0 (by norm_num) (by norm_num)
  simpa using h

/-- Membership in the day map built by `build_comparison_data`: a day entry
exists iff the day is a calendar day of the month and at least one of the
two *rounded* sides is positive, and then it carries exactly the two rounded
values. -/
theorem mem_buildDays (jd fd : DayKey → ℚ) (y m d : ℕ) (c : DayCell) :
    ((y, m, d), c) ∈ buildDays jd fd y m ↔
      (1 ≤ d ∧ d ≤ daysInMonth y m ∧
        (0 < round1 (jd (y, m, d)) ∨ 0 < round1 (fd (y, m, d))) ∧
        c = ⟨round1 (jd (y, m, d)), round1 (fd (y, m, d))⟩) := by
  unfold buildDays
  rw [List.mem_filterMap]
  constructor
  · rintro ⟨d', hd', hsome⟩
    rw [List.mem_map] at hd'
    obtain ⟨i, hi, rfl⟩ := hd'
    rw [List.mem_range] at hi
    dsimp only at hsome
    by_cases hpos : 0 < round1 (jd (y, m, i + 1)) ∨ 0 < round1 (fd (y, m, i + 1))
    · rw [if_pos hpos] at hsome
      have hpair := Option.some.inj hsome
      have hkey : ((y, m, i + 1) : DayKey) = (y, m, d) := congrArg Prod.fst hpair
      have hd : i + 1 = d := by
        have := congrArg (fun t : DayKey => t.2.2) hkey
        simpa using this
      subst hd
      exact ⟨by omega, by omega, hpos, (congrArg Prod.snd hpair).symm⟩
    · rw [if_neg hpos] at hsome
      cases hsome
  · rintro ⟨h1, h2, hpos, rfl⟩
    refine ⟨d, ?_, ?_⟩
    · rw [List.mem_map]
      exact ⟨d - 1, List.mem_range.mpr (by omega), by omega⟩
    · dsimp only
      rw [if_pos hpos]

/-- C9 (counterexample): a day with nonzero *raw* reported hours (0.04 h on
2024-01-05) on one side and zero on the other is dropped from the days map —
retention is decided on the one-decimal-rounded values, which are both 0
here, so the built day map is empty. -/
theorem comparison_day_cex :
    0 < cexJiraDaily (2024, 1, 5) ∧ buildDays cexJiraDaily zeroDaily 2024 1 = [] := by
  refine ⟨by norm_num [cexJiraDaily], ?_⟩
  unfold buildDays
  rw [List.filterMap_eq_nil_iff]
  intro d hd
  dsimp only
  have hz : round1 (zeroDaily (2024, 1, d)) = 0 := round1_zero
  have hj : round1 (cexJiraDaily (2024, 1, d)) = 0 := by
    by_cases h5 : ((2024, 1, d) : DayKey) = (2024, 1, 5)
    · rw [show cexJiraDaily (2024, 1, d) = 1/25 from by simp [cexJiraDaily, h5]]
      exact round1_one_twentyfifth
    · rw [show cexJiraDaily (2024, 1, d) = 0 from by simp [cexJiraDaily, h5]]
      exact round1_zero
  rw [if_neg (by rw [hj, hz]; simp)]

/-- C9 (amended): in the comparison structure, both sides default to 0 when
absent (they are total maps), and a day entry is present iff at least one of
the two sides is nonzero *after* the one-decimal rounding — a day whose raw
hours round to 0.0 (e.g. 0.04 h) is dropped even though its raw value is
nonzero; each month cell of a matched person carries exactly the rounded
month values and this day map. -/
theorem comparison_day_retention_amended (jd fd : DayKey → ℚ) (y m d : ℕ)
    (c : DayCell) (rawTasks : String → MonthKey → List ℚ)
    (attendance : ℕ → MonthKey → ℚ) (jdf : String → DayKey → ℚ)
    (fdf : ℕ → DayKey → ℚ) (months : List MonthKey) (name : String) (fid : ℕ)
    (mo : MonthKey) (cell : MonthCell) :
    (((y, m, d), c) ∈ buildDays jd fd y m ↔
      (1 ≤ d ∧ d ≤ daysInMonth y m ∧
        (0 < round1 (jd (y, m, d)) ∨ 0 < round1 (fd (y, m, d))) ∧
        c = ⟨round1 (jd (y, m, d)), round1 (fd (y, m, d))⟩))
  ∧ ((mo, cell) ∈ personMonths rawTasks attendance jdf fdf months name fid ↔
      (mo ∈ months ∧
        cell = ⟨cmpJiraMonth rawTasks name mo, cmpFactMonth attendance fid mo,
          buildDays (fun dk => jdf name dk) (fun dk => fdf fid dk) mo.1 mo.2⟩)) := by
  refine ⟨mem_buildDays jd fd y m d c, ?_⟩
  unfold personMonths
  rw [List.mem_map]
  constructor
  · rintro ⟨m', hm', heq⟩
    have h1 : m' = mo := congrArg Prod.fst heq
    subst h1
    exact ⟨hm', (congrArg Prod.snd heq).symm⟩
  · rintro ⟨hm, rfl⟩
    exact ⟨mo, hm, rfl⟩

/-- In a list of pairs with nodup first components, the first component
determines the second. -/
theorem eq_snd_of_nodup_fst {l : List (String × ℕ)}
    (hnd : (l.map Prod.fst).Nodup) {n : String} {a b : ℕ}
    (ha : (n, a) ∈ l) (hb : (n, b) ∈ l) : a = b := by
  induction l with
  | nil => cases ha
  | cons x l ih =>
      rw [List.map_cons, List.nodup_cons] at hnd
      have hfst : ∀ {c : ℕ}, (n, c) ∈ l → (n : String) ∈ l.map Prod.fst := by
        intro c hc
        simpa using List.mem_map_of_mem Prod.fst hc
      rcases List.mem_cons.mp ha with hax | ha'
      · rcases List.mem_cons.mp hb with hbx | hb'
        · exact congrArg Prod.snd (hax.trans hbx.symm)
        · exfalso
          apply hnd.1
          rw [← hax]
          exact hfst hb'
      · rcases List.mem_cons.mp hb with hbx | hb'
        · exfalso
          apply hnd.1
          rw [← hbx]
          exact hfst ha'
        · exact ih hnd.2 ha' hb'

/-- C10: a matched employee appears in the comparison output iff the sum of
their per-month one-decimal-rounded reported (JIRA) hours or the sum of
their per-month rounded captured (Factorial) hours over the whole range is
positive; an employee whose rounded values are all zero is omitted entirely
even though the identity was resolved. -/
theorem comparison_inclusion (rawTasks : String → MonthKey → List ℚ)
    (attendance : ℕ → MonthKey → ℚ) (jd : String → DayKey → ℚ)
    (fd : ℕ → DayKey → ℚ) (months : List MonthKey)
    (matched : List (String × ℕ)) (name : String) (fid : ℕ)
    (hnd : (matched.map Prod.fst).Nodup) (hmem : (name, fid) ∈ matched) :
    (∃ pc, (name, pc) ∈
        build_comparison_data rawTasks attendance jd fd months matched) ↔
      (0 < cmpTotalJ rawTasks months name ∨
        0 < cmpTotalF attendance months fid) := by
  constructor
  · rintro ⟨pc, hpc⟩
    rw [build_comparison_data, List.mem_filterMap] at hpc
    obtain ⟨⟨n', f'⟩, hmem', heq⟩ := hpc
    dsimp only at heq
    by_cases hcond : 0 < cmpTotalJ rawTasks months n' ∨
        0 < cmpTotalF attendance months f'
    · rw [if_pos hcond] at heq
      have h1 : n' = name := congrArg Prod.fst (Option.some.inj heq)
      subst h1
      have h2 : f' = fid := eq_snd_of_nodup_fst hnd hmem' hmem
      subst h2
      exact hcond
    · rw [if_neg hcond] at heq
      cases heq
  · intro hcond
    refine ⟨⟨personMonths rawTasks attendance jd fd months name fid⟩, ?_⟩
    rw [build_comparison_data, List.mem_filterMap]
    refine ⟨(name, fid), hmem, ?_⟩
    dsimp only
    rw [if_pos hcond]

/-- C10 (witness): one matched person with 2.5 rounded hours in the single
visible month is included. -/
theorem comparison_inclusion_witness :
    ∃ pc, ("Ana", pc) ∈ build_comparison_data exRawTasksF zeroAttendance
      zeroDailyJ zeroDailyF [(2024, 1)] [("Ana", 7)] := by
  refine (comparison_inclusion exRawTasksF zeroAttendance zeroDailyJ zeroDailyF
    [(2024, 1)] [("Ana", 7)] "Ana" 7 (by simp) (by simp)).mpr (Or.inl ?_)
  have h1 : exRawTasksF "Ana" (2024, 1) = [5/2] := by simp [exRawTasksF]
  have h2 : cmpTotalJ exRawTasksF [(2024, 1)] "Ana" = round1 (5/2) := by
    simp [cmpTotalJ, cmpJiraMonth, h1]
  have h3 : round1 ((5:ℚ)/2) = 5/2 := by
    have h4 := round1_tenths 25
    norm_num at h4
    convert h4 using 2
  rw [h2, h3]
  norm_num
